import Mathlib

/-!
Verification of the solar-position approximation and frame-conversion core
(`source/validate/body/sun_plot.py`), over a real-number shallow embedding:
Python floats become `ℝ`, `math.sin`/`math.cos`/`math.atan2` become
`Real.sin`/`Real.cos`/`Complex.arg`, the fallible `math.asin` becomes an
`Option`-valued function, and Python's float `%` becomes `fmod` below.
The externally supplied precession-nutation rotation matrix (`erfa.pnm06a`)
is an opaque parameter.
-/

noncomputable section

open Real Set

/-- Python's float modulo `x % y`: the remainder with the sign of the divisor,
`x - y * ⌊x / y⌋`. -/
def fmod (x y : ℝ) : ℝ := x - y * ⌊x / y⌋

/-- Function `wrap_angle` from sun_plot.py: wrap an angle in radians to `[0, 2*pi)`,
computed as `angle % (2 * math.pi)`. -/
def wrap_angle (angle : ℝ) : ℝ := fmod angle (2 * π)

/-- Function `angle_delta` from sun_plot.py: the difference between two angles in
radians, `(wrap_angle a - wrap_angle b + pi) % (2 * pi) - pi`. -/
def angle_delta (a b : ℝ) : ℝ :=
  fmod (wrap_angle a - wrap_angle b + π) (2 * π) - π

/-- Function `degrees_to_radians` from sun_plot.py: `value * math.pi / 180.0`. -/
def degrees_to_radians (value : ℝ) : ℝ := value * π / 180.0

/-- Function `radians_to_arcsec` from sun_plot.py: `value * (180.0 * 3600.0) / math.pi`. -/
def radians_to_arcsec (value : ℝ) : ℝ := value * (180.0 * 3600.0) / π

/-- Function `arcsec_to_radians` from sun_plot.py: `value * math.pi / (180.0 * 3600.0)`. -/
def arcsec_to_radians (value : ℝ) : ℝ := value * π / (180.0 * 3600.0)

/-- Class `SunPosition` from sun_plot.py: a spherical position with right ascension
`ra` (radians), declination `dec` (radians) and distance `r` (astronomical
units). -/
structure SunPosition where
  ra : ℝ
  dec : ℝ
  r : ℝ

/-- Python's `math.atan2 y x`: the two-argument arctangent, with value in
`(-pi, pi]`, realised as the complex argument of `x + y*I`. -/
def atan2 (y x : ℝ) : ℝ := Complex.arg ⟨x, y⟩

/-- Python's `math.asin`: defined on `[-1, 1]` and raising `ValueError`
outside that domain, embedded as an `Option`. -/
def math_asin (x : ℝ) : Option ℝ :=
  if -1 ≤ x ∧ x ≤ 1 then some (Real.arcsin x) else none

/-- Clamp `x` to the interval `[lo, hi]` (used to state the spec's
`asin(clamp(sin(dec), -1, 1))` formula for the declination). -/
def clamp (lo hi x : ℝ) : ℝ := max lo (min hi x)

/-- Modelled from the spec: `astropy.coordinates.spherical_to_cartesian`
(the astropy library itself is outside the repository), per §4.3 step 1:
`x = r·cos(lat)·cos(lon), y = r·cos(lat)·sin(lon), z = r·sin(lat)`. -/
def spherical_to_cartesian (r lat lon : ℝ) : Fin 3 → ℝ :=
  ![r * Real.cos lat * Real.cos lon, r * Real.cos lat * Real.sin lon,
    r * Real.sin lat]

/-- Euclidean norm of a Cartesian 3-vector. -/
def cnorm (v : Fin 3 → ℝ) : ℝ := Real.sqrt (v 0 ^ 2 + v 1 ^ 2 + v 2 ^ 2)

/-- Modelled from the spec: `astropy.coordinates.cartesian_to_spherical`
(the astropy library itself is outside the repository), per §4.3 step 3:
`r = |v|`; `dec = asin(z/r)` (domain-clamped, which is how `Real.arcsin`
behaves outside `[-1, 1]`); `ra = atan2(y, x)` normalized to `[0, 2π)`. -/
def cartesian_to_spherical (v : Fin 3 → ℝ) : SunPosition :=
  { ra := wrap_angle (atan2 (v 1) (v 0)),
    dec := Real.arcsin (v 2 / cnorm v),
    r := cnorm v }

/-- Function `tete_to_gcrs` from sun_plot.py: convert a TETE spherical position to
GCRS by `gcrs_cartesian = tete_cartesian @ rbpn` (row-vector times matrix),
where `rbpn` is the externally supplied precession-nutation rotation matrix
(`erfa.pnm06a`), taken here as an opaque parameter. -/
def tete_to_gcrs (tete : SunPosition) (rbpn : Matrix (Fin 3) (Fin 3) ℝ) :
    SunPosition :=
  cartesian_to_spherical
    (Matrix.vecMul (spherical_to_cartesian tete.r tete.dec tete.ra) rbpn)

/-- Value `D` in `approximate_sun_position`: days from the J2000.0 epoch,
`JD - 2451545.0`. -/
def sun_D (JD : ℝ) : ℝ := JD - 2451545.0

/-- Value `g_deg` in `approximate_sun_position`: mean anomaly of the Sun in
degrees, `357.529 + 0.98560028 * D`. -/
def sun_g_deg (JD : ℝ) : ℝ := 357.529 + 0.98560028 * sun_D JD

/-- Value `g_rad` in `approximate_sun_position`. -/
def sun_g_rad (JD : ℝ) : ℝ := degrees_to_radians (sun_g_deg JD)

/-- Value `q_deg` in `approximate_sun_position`: mean longitude of the Sun in
degrees, `280.459 + 0.98564736 * D`. -/
def sun_q_deg (JD : ℝ) : ℝ := 280.459 + 0.98564736 * sun_D JD

/-- Value `L_deg` in `approximate_sun_position`: geocentric apparent ecliptic
longitude in degrees, `q_deg + 1.915 * sin(g_rad) + 0.020 * sin(2 * g_rad)`. -/
def sun_L_deg (JD : ℝ) : ℝ :=
  sun_q_deg JD + 1.915 * Real.sin (sun_g_rad JD)
    + 0.020 * Real.sin (2 * sun_g_rad JD)

/-- Value `L_rad` in `approximate_sun_position`. -/
def sun_L_rad (JD : ℝ) : ℝ := degrees_to_radians (sun_L_deg JD)

/-- Value `R` in `approximate_sun_position`: Earth-Sun distance in astronomical
units, `1.00014 - 0.01671 * cos(g_rad) - 0.00014 * cos(2 * g_rad)`. -/
def sun_R (JD : ℝ) : ℝ :=
  1.00014 - 0.01671 * Real.cos (sun_g_rad JD)
    - 0.00014 * Real.cos (2 * sun_g_rad JD)

/-- Value `e_deg` in `approximate_sun_position`: mean obliquity of the ecliptic in
degrees, `23.439 - 0.00000036 * D`. -/
def sun_e_deg (JD : ℝ) : ℝ := 23.439 - 0.00000036 * sun_D JD

/-- Value `e_rad` in `approximate_sun_position`. -/
def sun_e_rad (JD : ℝ) : ℝ := degrees_to_radians (sun_e_deg JD)

/-- Value `RA_rad` in `approximate_sun_position`: the Sun's right ascension,
`atan2(cos(e_rad) * sin(L_rad), cos(L_rad))`. -/
def sun_RA_rad (JD : ℝ) : ℝ :=
  atan2 (Real.cos (sun_e_rad JD) * Real.sin (sun_L_rad JD))
    (Real.cos (sun_L_rad JD))

/-- Lines 244-287 of sun_plot.py: the TETE-frame part of
`approximate_sun_position` (the `sun_tete` value), as a function of the TT
Julian Date. The `math.asin` call can in principle fail, hence `Option`. -/
def approximate_sun_tete (JD : ℝ) : Option SunPosition :=
  (math_asin (Real.sin (sun_e_rad JD) * Real.sin (sun_L_rad JD))).map
    (fun d_rad => { ra := sun_RA_rad JD, dec := d_rad, r := sun_R JD })

/-- Function `approximate_sun_position` from sun_plot.py: the TETE-frame series
followed by `tete_to_gcrs`, with the per-instant rotation matrix supplied by
the opaque provider `rbpn` (the code calls `erfa.pnm06a` on the instant). -/
def approximate_sun_position (rbpn : ℝ → Matrix (Fin 3) (Fin 3) ℝ) (JD : ℝ) :
    Option SunPosition :=
  (approximate_sun_tete JD).map (fun p => tete_to_gcrs p (rbpn JD))

/-- The disabled sequential path of `get_sun_approximate` from sun_plot.py:
a plain loop appending `approximate_sun_position` of each time point. -/
def get_sun_approximate_seq (rbpn : ℝ → Matrix (Fin 3) (Fin 3) ℝ)
    (JDs : List ℝ) : List (Option SunPosition) :=
  JDs.map (approximate_sun_position rbpn)

/-- Modelled from the spec: the worker pool of `get_sun_approximate`
(`multiprocessing.pool.Pool(processes=8).map`, whose implementation is
outside the repository) evaluates the function on the tasks in an arbitrary
completion order, tagging each result with its input index (§5: results are
returned in input order regardless of completion order). `completed` is the
list of (input index, input) pairs in completion order. -/
def pool_events {α β : Type} (f : α → β) (completed : List (ℕ × α)) :
    List (ℕ × β) :=
  completed.map (fun p => (p.1, f p.2))

/-- Modelled from the spec: the pool reassembles the output by input index
(§5), looking up each index among the completed results; an index that never
completed would yield `none`. -/
def pool_reassemble {β : Type} (events : List (ℕ × β)) (n : ℕ) :
    List (Option β) :=
  (List.range n).map (fun i => (events.find? (fun e => e.1 == i)).map Prod.snd)

/-- The enabled parallel-pool path of `get_sun_approximate` from sun_plot.py,
with the pool's completion order made explicit. -/
def get_sun_approximate_pool (rbpn : ℝ → Matrix (Fin 3) (Fin 3) ℝ)
    (JDs : List ℝ) (completed : List (ℕ × ℝ)) :
    List (Option (Option SunPosition)) :=
  pool_reassemble (pool_events (approximate_sun_position rbpn) completed)
    JDs.length

/-- Index (0, 1, 2 or 3) of the quadrant in which an angle lies, after
normalization to `[0, 2π)`. -/
def quadrantIdx (θ : ℝ) : ℤ := ⌊wrap_angle θ / (π / 2)⌋

/-! ### Basic properties of `fmod` and `wrap_angle` -/

theorem fmod_eq_fract {x y : ℝ} (hy : y ≠ 0) :
    fmod x y = y * Int.fract (x / y) := by
  rw [fmod, Int.fract, mul_sub, mul_div_cancel₀ _ hy]

theorem fmod_nonneg {x y : ℝ} (hy : 0 < y) : 0 ≤ fmod x y := by
  rw [fmod_eq_fract hy.ne.symm]
  exact mul_nonneg hy.le (Int.fract_nonneg _)

theorem fmod_lt {x y : ℝ} (hy : 0 < y) : fmod x y < y := by
  rw [fmod_eq_fract hy.ne.symm]
  calc y * Int.fract (x / y) < y * 1 :=
        (mul_lt_mul_left hy).2 (Int.fract_lt_one _)
    _ = y := mul_one y

theorem fmod_eq_self {x y : ℝ} (h0 : 0 ≤ x) (h1 : x < y) : fmod x y = x := by
  have hy : 0 < y := lt_of_le_of_lt h0 h1
  have hfloor : ⌊x / y⌋ = 0 := by
    rw [Int.floor_eq_zero_iff]
    constructor
    · exact div_nonneg h0 hy.le
    · rw [div_lt_one hy]; exact h1
  rw [fmod, hfloor]
  push_cast
  ring

theorem fmod_add_int_mul {x y : ℝ} (hy : y ≠ 0) (k : ℤ) :
    fmod (x + k * y) y = fmod x y := by
  have hdiv : (x + k * y) / y = x / y + k := by
    field_simp
  rw [fmod, fmod, hdiv, Int.floor_add_int]
  push_cast
  ring

theorem fmod_eq_fmod_of_sub_eq_int_mul {x z y : ℝ} (hy : y ≠ 0) {k : ℤ}
    (h : x - z = k * y) : fmod x y = fmod z y := by
  have hx : x = z + k * y := by linarith
  rw [hx, fmod_add_int_mul hy]

theorem two_pi_pos' : (0 : ℝ) < 2 * π := by positivity

theorem wrap_angle_nonneg (x : ℝ) : 0 ≤ wrap_angle x :=
  fmod_nonneg two_pi_pos'

theorem wrap_angle_lt (x : ℝ) : wrap_angle x < 2 * π :=
  fmod_lt two_pi_pos'

theorem wrap_angle_eq_self {x : ℝ} (h0 : 0 ≤ x) (h1 : x < 2 * π) :
    wrap_angle x = x :=
  fmod_eq_self h0 h1

theorem wrap_angle_idem (x : ℝ) : wrap_angle (wrap_angle x) = wrap_angle x :=
  wrap_angle_eq_self (wrap_angle_nonneg x) (wrap_angle_lt x)

theorem wrap_angle_eq_of_sub_eq_int_mul {x z : ℝ} {k : ℤ}
    (h : x - z = k * (2 * π)) : wrap_angle x = wrap_angle z :=
  fmod_eq_fmod_of_sub_eq_int_mul two_pi_pos'.ne.symm h

theorem sub_wrap_angle_eq (x : ℝ) :
    x - wrap_angle x = (⌊x / (2 * π)⌋ : ℤ) * (2 * π) := by
  rw [wrap_angle, fmod]
  ring

theorem sin_wrap_angle (x : ℝ) : Real.sin (wrap_angle x) = Real.sin x := by
  have h : wrap_angle x = x - (⌊x / (2 * π)⌋ : ℤ) * (2 * π) := by
    have := sub_wrap_angle_eq x
    linarith
  rw [h, Real.sin_sub_int_mul_two_pi]

theorem cos_wrap_angle (x : ℝ) : Real.cos (wrap_angle x) = Real.cos x := by
  have h : wrap_angle x = x - (⌊x / (2 * π)⌋ : ℤ) * (2 * π) := by
    have := sub_wrap_angle_eq x
    linarith
  rw [h, Real.cos_sub_int_mul_two_pi]

theorem wrap_angle_neg_pi_div_six : wrap_angle (-(π / 6)) = 2 * π - π / 6 := by
  have h : wrap_angle (-(π / 6)) = wrap_angle (2 * π - π / 6) := by
    apply wrap_angle_eq_of_sub_eq_int_mul (k := -1)
    push_cast
    ring
  rw [h]
  apply wrap_angle_eq_self
  · have := Real.pi_pos; linarith
  · have := Real.pi_pos; linarith

theorem wrap_angle_two_pi : wrap_angle (2 * π) = 0 := by
  have h : wrap_angle (2 * π) = wrap_angle 0 := by
    apply wrap_angle_eq_of_sub_eq_int_mul (k := 1)
    push_cast
    ring
  rw [h]
  exact wrap_angle_eq_self le_rfl two_pi_pos'

/-- C8: for every real angle `x`, `wrap_angle x` lies in `[0, 2*pi)` and
`wrap_angle` is idempotent; in particular `wrap_angle (-pi/6) = 2*pi - pi/6`
and `wrap_angle (2*pi) = 0`. -/
theorem wrap_angle_spec (x : ℝ) :
    wrap_angle x ∈ Set.Ico 0 (2 * π) ∧
    wrap_angle (wrap_angle x) = wrap_angle x ∧
    wrap_angle (-(π / 6)) = 2 * π - π / 6 ∧
    wrap_angle (2 * π) = 0 :=
  ⟨⟨wrap_angle_nonneg x, wrap_angle_lt x⟩, wrap_angle_idem x,
    wrap_angle_neg_pi_div_six, wrap_angle_two_pi⟩

theorem angle_delta_mem (a b : ℝ) : angle_delta a b ∈ Set.Ico (-π) π := by
  constructor
  · have := fmod_nonneg (x := wrap_angle a - wrap_angle b + π) two_pi_pos'
    rw [angle_delta]
    linarith
  · have := fmod_lt (x := wrap_angle a - wrap_angle b + π) two_pi_pos'
    rw [angle_delta]
    linarith

theorem angle_delta_congr (a b : ℝ) :
    wrap_angle (b + angle_delta a b) = wrap_angle a := by
  apply wrap_angle_eq_of_sub_eq_int_mul
    (k := ⌊b / (2 * π)⌋ - ⌊a / (2 * π)⌋
      - ⌊(wrap_angle a - wrap_angle b + π) / (2 * π)⌋)
  have ha := sub_wrap_angle_eq a
  have hb := sub_wrap_angle_eq b
  have hd : angle_delta a b
      = wrap_angle a - wrap_angle b
        - (⌊(wrap_angle a - wrap_angle b + π) / (2 * π)⌋ : ℤ) * (2 * π) := by
    rw [angle_delta, wrap_angle, fmod]
    ring
  push_cast at ha hb hd ⊢
  linarith

theorem angle_delta_antisym {a b : ℝ} (h : angle_delta a b ≠ -π) :
    angle_delta a b = -angle_delta b a := by
  have hmem := angle_delta_mem a b
  have hlt : -π < angle_delta a b := lt_of_le_of_ne hmem.1 (Ne.symm h)
  have hd : angle_delta a b
      = wrap_angle a - wrap_angle b
        - (⌊(wrap_angle a - wrap_angle b + π) / (2 * π)⌋ : ℤ) * (2 * π) := by
    rw [angle_delta, wrap_angle, fmod]
    ring
  have hba : fmod (wrap_angle b - wrap_angle a + π) (2 * π)
      = -angle_delta a b + π := by
    have hcongr : fmod (wrap_angle b - wrap_angle a + π) (2 * π)
        = fmod (-angle_delta a b + π) (2 * π) := by
      apply fmod_eq_fmod_of_sub_eq_int_mul two_pi_pos'.ne.symm
        (k := -⌊(wrap_angle a - wrap_angle b + π) / (2 * π)⌋)
      push_cast at hd ⊢
      linarith
    rw [hcongr]
    apply fmod_eq_self
    · linarith [hmem.2]
    · linarith
  have hba' : angle_delta b a = -angle_delta a b := by
    rw [angle_delta, hba]
    ring
  linarith [hba']

/-- C7: for all real angles `a` and `b`, `angle_delta a b` lies in
`[-pi, pi]`, satisfies `a = b + delta (mod 2*pi)` in the sense that
`wrap_angle (b + angle_delta a b) = wrap_angle a`, equals
`wrap_angle (wrap_angle a - wrap_angle b + pi) - pi`, and is antisymmetric
away from the wrap edge where the delta has magnitude exactly `pi`. -/
theorem angle_delta_spec (a b : ℝ) :
    angle_delta a b ∈ Set.Icc (-π) π ∧
    wrap_angle (b + angle_delta a b) = wrap_angle a ∧
    angle_delta a b = wrap_angle (wrap_angle a - wrap_angle b + π) - π ∧
    (|angle_delta a b| ≠ π → angle_delta a b = -angle_delta b a) := by
  refine ⟨⟨(angle_delta_mem a b).1, (angle_delta_mem a b).2.le⟩,
    angle_delta_congr a b, rfl, fun h => angle_delta_antisym ?_⟩
  intro habs
  apply h
  rw [habs, abs_neg, abs_of_nonneg Real.pi_pos.le]

theorem angle_delta_zero_pi_div_six : angle_delta 0 (π / 6) = -(π / 6) := by
  have h0 : wrap_angle 0 = 0 := wrap_angle_eq_self le_rfl two_pi_pos'
  have h6 : wrap_angle (π / 6) = π / 6 := by
    apply wrap_angle_eq_self
    · have := Real.pi_pos; linarith
    · have := Real.pi_pos; linarith
  have hf : fmod (wrap_angle 0 - wrap_angle (π / 6) + π) (2 * π)
      = 0 - π / 6 + π := by
    rw [h0, h6]
    apply fmod_eq_self
    · have := Real.pi_pos; linarith
    · have := Real.pi_pos; linarith
  rw [angle_delta, hf]
  ring

/-- C7 witness: the antisymmetry conclusion at the concrete pair
`a = 0`, `b = pi/6`. -/
theorem angle_delta_spec_witness :
    |angle_delta 0 (π / 6)| ≠ π ∧
    angle_delta 0 (π / 6) = -angle_delta (π / 6) 0 := by
  have habs : |angle_delta 0 (π / 6)| ≠ π := by
    rw [angle_delta_zero_pi_div_six, abs_neg,
      abs_of_nonneg (by positivity : (0:ℝ) ≤ π / 6)]
    have := Real.pi_pos
    intro hcontra
    linarith
  exact ⟨habs, (angle_delta_spec 0 (π / 6)).2.2.2 habs⟩

theorem sin_mul_sin_abs_le (JD : ℝ) :
    |Real.sin (sun_e_rad JD) * Real.sin (sun_L_rad JD)| ≤ 1 := by
  rw [abs_mul]
  have h1 := Real.abs_sin_le_one (sun_e_rad JD)
  have h2 := Real.abs_sin_le_one (sun_L_rad JD)
  have h3 := abs_nonneg (Real.sin (sun_e_rad JD))
  have h4 := abs_nonneg (Real.sin (sun_L_rad JD))
  nlinarith

theorem approximate_sun_tete_eq (JD : ℝ) :
    approximate_sun_tete JD =
      some { ra := sun_RA_rad JD,
             dec := Real.arcsin
               (Real.sin (sun_e_rad JD) * Real.sin (sun_L_rad JD)),
             r := sun_R JD } := by
  have h := abs_le.1 (sin_mul_sin_abs_le JD)
  rw [approximate_sun_tete, math_asin, if_pos ⟨h.1, h.2⟩]
  rfl

theorem clamp_eq_self {x : ℝ} (h1 : -1 ≤ x) (h2 : x ≤ 1) :
    clamp (-1) 1 x = x := by
  rw [clamp, min_eq_right h2, max_eq_right h1]

/-- C3: for every TT Julian Date, the declination of the approximate solar
position equals `asin(clamp(sin(eps) * sin(L), -1, 1))`; the `asin` argument
never leaves `[-1, 1]`, so the fallible `math.asin` never fails — the
computation always returns a position. -/
theorem declination_clamped (JD : ℝ) :
    |Real.sin (sun_e_rad JD) * Real.sin (sun_L_rad JD)| ≤ 1 ∧
    approximate_sun_tete JD =
      some { ra := sun_RA_rad JD,
             dec := Real.arcsin (clamp (-1) 1
               (Real.sin (sun_e_rad JD) * Real.sin (sun_L_rad JD))),
             r := sun_R JD } := by
  have habs := sin_mul_sin_abs_le JD
  have h := abs_le.1 habs
  refine ⟨habs, ?_⟩
  rw [approximate_sun_tete_eq, clamp_eq_self h.1 h.2]

/-- C1: for every TT Julian Date the solar approximation computes
`D = JD - 2451545.0`, mean anomaly `g = 357.529 + 0.98560028*D` degrees,
mean longitude `q = 280.459 + 0.98564736*D` degrees, apparent ecliptic
longitude `L = q + 1.915*sin(g) + 0.020*sin(2g)` degrees, distance
`R = 1.00014 - 0.01671*cos(g) - 0.00014*cos(2g)` AU and obliquity
`eps = 23.439 - 0.00000036*D` degrees, the distance being the one carried by
the returned position; at `JD = 2451545.0` exactly, `D = 0`,
`g = 357.529` degrees and `q = 280.459` degrees. -/
theorem approximate_sun_formulas (JD : ℝ) :
    sun_D JD = JD - 2451545.0 ∧
    sun_g_deg JD = 357.529 + 0.98560028 * (JD - 2451545.0) ∧
    sun_q_deg JD = 280.459 + 0.98564736 * (JD - 2451545.0) ∧
    sun_L_deg JD = sun_q_deg JD
      + 1.915 * Real.sin (degrees_to_radians (sun_g_deg JD))
      + 0.020 * Real.sin (2 * degrees_to_radians (sun_g_deg JD)) ∧
    sun_R JD = 1.00014
      - 0.01671 * Real.cos (degrees_to_radians (sun_g_deg JD))
      - 0.00014 * Real.cos (2 * degrees_to_radians (sun_g_deg JD)) ∧
    sun_e_deg JD = 23.439 - 0.00000036 * (JD - 2451545.0) ∧
    (approximate_sun_tete JD).map SunPosition.r = some (sun_R JD) ∧
    sun_D 2451545.0 = 0 ∧
    sun_g_deg 2451545.0 = 357.529 ∧
    sun_q_deg 2451545.0 = 280.459 := by
  refine ⟨rfl, rfl, rfl, rfl, rfl, rfl, ?_, ?_, ?_, ?_⟩
  · rw [approximate_sun_tete_eq]
    rfl
  · norm_num [sun_D]
  · norm_num [sun_g_deg, sun_D]
  · norm_num [sun_q_deg, sun_D]

theorem cnorm_nonneg (v : Fin 3 → ℝ) : 0 ≤ cnorm v :=
  Real.sqrt_nonneg _

/-- C9: the distance returned by the approximation,
`R = 1.00014 - 0.01671*cos(g) - 0.00014*cos(2g)`, is at least
`1.00014 - 0.01685 > 0`, and the frame conversion's output distance is a
Cartesian norm, hence non-negative. -/
theorem distance_nonneg (JD : ℝ) (p : SunPosition)
    (M : Matrix (Fin 3) (Fin 3) ℝ) :
    1.00014 - 0.01685 ≤ sun_R JD ∧ 0 < sun_R JD ∧
    0 ≤ (tete_to_gcrs p M).r := by
  have h1 := Real.neg_one_le_cos (sun_g_rad JD)
  have h2 := Real.cos_le_one (sun_g_rad JD)
  have h3 := Real.neg_one_le_cos (2 * sun_g_rad JD)
  have h4 := Real.cos_le_one (2 * sun_g_rad JD)
  refine ⟨?_, ?_, ?_⟩
  · rw [sun_R]; linarith
  · rw [sun_R]; linarith
  · exact cnorm_nonneg _

/-- C2: for every input TETE spherical position and rotation matrix, the
right ascension of the GCRS position returned by `tete_to_gcrs` lies in the
canonical range `[0, 2*pi)`. -/
theorem tete_to_gcrs_ra_range (p : SunPosition)
    (M : Matrix (Fin 3) (Fin 3) ℝ) :
    (tete_to_gcrs p M).ra ∈ Set.Ico 0 (2 * π) :=
  ⟨wrap_angle_nonneg _, wrap_angle_lt _⟩

theorem dotProduct_self_eq (v : Fin 3 → ℝ) :
    Matrix.dotProduct v v = v 0 ^ 2 + v 1 ^ 2 + v 2 ^ 2 := by
  simp only [Matrix.dotProduct, Fin.sum_univ_three]
  ring

theorem vecMul_dotProduct_self {M : Matrix (Fin 3) (Fin 3) ℝ}
    (hM : M * M.transpose = 1) (v : Fin 3 → ℝ) :
    Matrix.dotProduct (Matrix.vecMul v M) (Matrix.vecMul v M)
      = Matrix.dotProduct v v := by
  calc Matrix.dotProduct (Matrix.vecMul v M) (Matrix.vecMul v M)
      = Matrix.dotProduct v
          (Matrix.mulVec M (Matrix.vecMul v M)) :=
        (Matrix.dotProduct_mulVec v M (Matrix.vecMul v M)).symm
    _ = Matrix.dotProduct v v := by
        rw [← Matrix.mulVec_transpose, Matrix.mulVec_mulVec, hM,
          Matrix.one_mulVec]

theorem cnorm_vecMul {M : Matrix (Fin 3) (Fin 3) ℝ}
    (hM : M.transpose * M = 1) (v : Fin 3 → ℝ) :
    cnorm (Matrix.vecMul v M) = cnorm v := by
  have hM' : M * M.transpose = 1 := Matrix.mul_eq_one_comm.mp hM
  rw [cnorm, cnorm, ← dotProduct_self_eq, ← dotProduct_self_eq,
    vecMul_dotProduct_self hM']

theorem cnorm_spherical_to_cartesian (r lat lon : ℝ) :
    cnorm (spherical_to_cartesian r lat lon) = |r| := by
  have h1 := Real.sin_sq_add_cos_sq lon
  have h2 := Real.sin_sq_add_cos_sq lat
  have key : (spherical_to_cartesian r lat lon 0) ^ 2
      + (spherical_to_cartesian r lat lon 1) ^ 2
      + (spherical_to_cartesian r lat lon 2) ^ 2 = r ^ 2 := by
    have e0 : spherical_to_cartesian r lat lon 0
        = r * Real.cos lat * Real.cos lon := rfl
    have e1 : spherical_to_cartesian r lat lon 1
        = r * Real.cos lat * Real.sin lon := rfl
    have e2 : spherical_to_cartesian r lat lon 2 = r * Real.sin lat := rfl
    rw [e0, e1, e2]
    linear_combination (r * Real.cos lat) ^ 2 * h1 + r ^ 2 * h2
  rw [cnorm, key, Real.sqrt_sq_eq_abs]

/-- C5: for every spherical position `p` and every orthogonal rotation
matrix `M`, the TETE-to-GCRS frame conversion preserves vector magnitude:
the Cartesian norm of the converted position equals the Cartesian norm of
`p`. -/
theorem tete_to_gcrs_preserves_norm (p : SunPosition)
    (M : Matrix (Fin 3) (Fin 3) ℝ) (hM : M.transpose * M = 1) :
    cnorm (spherical_to_cartesian (tete_to_gcrs p M).r
        (tete_to_gcrs p M).dec (tete_to_gcrs p M).ra)
      = cnorm (spherical_to_cartesian p.r p.dec p.ra) := by
  have hr : (tete_to_gcrs p M).r
      = cnorm (Matrix.vecMul (spherical_to_cartesian p.r p.dec p.ra) M) := rfl
  rw [cnorm_spherical_to_cartesian, cnorm_spherical_to_cartesian, hr,
    abs_of_nonneg (cnorm_nonneg _), cnorm_vecMul hM,
    cnorm_spherical_to_cartesian]

/-- C5 witness: the norm-preservation conclusion at the concrete position
(ra 0, dec 0, r 1) and the identity rotation matrix. -/
theorem tete_to_gcrs_preserves_norm_witness :
    (1 : Matrix (Fin 3) (Fin 3) ℝ).transpose * 1 = 1 ∧
    cnorm (spherical_to_cartesian (tete_to_gcrs ⟨0, 0, 1⟩ 1).r
        (tete_to_gcrs ⟨0, 0, 1⟩ 1).dec (tete_to_gcrs ⟨0, 0, 1⟩ 1).ra)
      = cnorm (spherical_to_cartesian (SunPosition.mk 0 0 1).r
          (SunPosition.mk 0 0 1).dec (SunPosition.mk 0 0 1).ra) := by
  have hM : (1 : Matrix (Fin 3) (Fin 3) ℝ).transpose * 1 = 1 := by
    rw [Matrix.transpose_one, one_mul]
  exact ⟨hM, tete_to_gcrs_preserves_norm ⟨0, 0, 1⟩ 1 hM⟩

theorem complex_abs_mk (x y : ℝ) :
    Complex.abs ⟨x, y⟩ = Real.sqrt (x ^ 2 + y ^ 2) := by
  rw [Complex.abs_apply, Complex.normSq_mk]
  ring_nf

theorem complex_mk_ne_zero {x y : ℝ} (h : ¬(x = 0 ∧ y = 0)) :
    (⟨x, y⟩ : ℂ) ≠ 0 := by
  intro hc
  exact h ⟨congrArg Complex.re hc, congrArg Complex.im hc⟩

theorem cos_atan2 {y x : ℝ} (h : ¬(x = 0 ∧ y = 0)) :
    Real.cos (atan2 y x) = x / Real.sqrt (x ^ 2 + y ^ 2) := by
  rw [atan2, Complex.cos_arg (complex_mk_ne_zero h), complex_abs_mk]

theorem sin_atan2 (y x : ℝ) :
    Real.sin (atan2 y x) = y / Real.sqrt (x ^ 2 + y ^ 2) := by
  rw [atan2, Complex.sin_arg, complex_abs_mk]

theorem SunPosition.ext_fields {p q : SunPosition} (h1 : p.ra = q.ra)
    (h2 : p.dec = q.dec) (h3 : p.r = q.r) : p = q := by
  cases p
  cases q
  simp only [SunPosition.mk.injEq]
  exact ⟨h1, h2, h3⟩

theorem spherical_of_cartesian_of (w : Fin 3 → ℝ) (hw : cnorm w ≠ 0) :
    spherical_to_cartesian (cartesian_to_spherical w).r
      (cartesian_to_spherical w).dec (cartesian_to_spherical w).ra = w := by
  have hnn : (0:ℝ) ≤ w 0 ^ 2 + w 1 ^ 2 + w 2 ^ 2 := by positivity
  have hrpos : 0 < cnorm w := lt_of_le_of_ne (cnorm_nonneg w) (Ne.symm hw)
  have hsum : w 0 ^ 2 + w 1 ^ 2 + w 2 ^ 2 = cnorm w ^ 2 :=
    (Real.sq_sqrt hnn).symm
  have habs2 : |w 2| ≤ cnorm w := by
    have hle : w 2 ^ 2 ≤ cnorm w ^ 2 := by
      nlinarith [sq_nonneg (w 0), sq_nonneg (w 1)]
    have := Real.sqrt_le_sqrt hle
    rwa [Real.sqrt_sq_eq_abs, Real.sqrt_sq hrpos.le] at this
  have hlb : -1 ≤ w 2 / cnorm w := by
    rw [le_div_iff₀ hrpos]
    linarith [(abs_le.mp habs2).1]
  have hub : w 2 / cnorm w ≤ 1 := by
    rw [div_le_one hrpos]
    exact (abs_le.mp habs2).2
  have hcosdec : Real.cos (Real.arcsin (w 2 / cnorm w))
      = Real.sqrt (w 0 ^ 2 + w 1 ^ 2) / cnorm w := by
    rw [Real.cos_arcsin]
    have hq : 1 - (w 2 / cnorm w) ^ 2
        = (w 0 ^ 2 + w 1 ^ 2) / cnorm w ^ 2 := by
      field_simp
      linarith [hsum]
    rw [hq, Real.sqrt_div (by positivity) _, Real.sqrt_sq hrpos.le]
  have hxcomp : Real.sqrt (w 0 ^ 2 + w 1 ^ 2) * Real.cos (atan2 (w 1) (w 0))
      = w 0 := by
    by_cases hs : w 0 ^ 2 + w 1 ^ 2 = 0
    · have h0 : w 0 = 0 :=
        (pow_eq_zero_iff (by norm_num : (2:ℕ) ≠ 0)).mp
          (by nlinarith [sq_nonneg (w 1)])
      rw [hs, Real.sqrt_zero, zero_mul, h0]
    · have hspos : 0 < Real.sqrt (w 0 ^ 2 + w 1 ^ 2) :=
        Real.sqrt_pos.mpr (lt_of_le_of_ne (by positivity) (Ne.symm hs))
      have hcos := cos_atan2 (y := w 1) (x := w 0) (by
        rintro ⟨h0, h1⟩
        exact hs (by rw [h0, h1]; ring))
      rw [hcos]
      field_simp
  have hycomp : Real.sqrt (w 0 ^ 2 + w 1 ^ 2) * Real.sin (atan2 (w 1) (w 0))
      = w 1 := by
    by_cases hs : w 0 ^ 2 + w 1 ^ 2 = 0
    · have h1 : w 1 = 0 :=
        (pow_eq_zero_iff (by norm_num : (2:ℕ) ≠ 0)).mp
          (by nlinarith [sq_nonneg (w 0)])
      rw [hs, Real.sqrt_zero, zero_mul, h1]
    · have hspos : 0 < Real.sqrt (w 0 ^ 2 + w 1 ^ 2) :=
        Real.sqrt_pos.mpr (lt_of_le_of_ne (by positivity) (Ne.symm hs))
      rw [sin_atan2]
      field_simp
  funext i
  fin_cases i
  · show cnorm w * Real.cos (Real.arcsin (w 2 / cnorm w))
      * Real.cos (wrap_angle (atan2 (w 1) (w 0))) = w 0
    rw [hcosdec, cos_wrap_angle]
    have hmul : cnorm w * (Real.sqrt (w 0 ^ 2 + w 1 ^ 2) / cnorm w)
        = Real.sqrt (w 0 ^ 2 + w 1 ^ 2) := by
      field_simp
    rw [hmul, hxcomp]
  · show cnorm w * Real.cos (Real.arcsin (w 2 / cnorm w))
      * Real.sin (wrap_angle (atan2 (w 1) (w 0))) = w 1
    rw [hcosdec, sin_wrap_angle]
    have hmul : cnorm w * (Real.sqrt (w 0 ^ 2 + w 1 ^ 2) / cnorm w)
        = Real.sqrt (w 0 ^ 2 + w 1 ^ 2) := by
      field_simp
    rw [hmul, hycomp]
  · show cnorm w * Real.sin (Real.arcsin (w 2 / cnorm w)) = w 2
    rw [Real.sin_arcsin hlb hub]
    field_simp

theorem cartesian_of_spherical_of (p : SunPosition) (hr : 0 < p.r)
    (hdec : p.dec ∈ Set.Ioo (-(π / 2)) (π / 2))
    (hra : p.ra ∈ Set.Ico 0 (2 * π)) :
    cartesian_to_spherical (spherical_to_cartesian p.r p.dec p.ra) = p := by
  have hcn : cnorm (spherical_to_cartesian p.r p.dec p.ra) = p.r := by
    rw [cnorm_spherical_to_cartesian, abs_of_pos hr]
  have hcpos : 0 < p.r * Real.cos p.dec :=
    mul_pos hr (Real.cos_pos_of_mem_Ioo hdec)
  apply SunPosition.ext_fields
  · show wrap_angle (atan2 (p.r * Real.cos p.dec * Real.sin p.ra)
        (p.r * Real.cos p.dec * Real.cos p.ra)) = p.ra
    have hzeq : (⟨p.r * Real.cos p.dec * Real.cos p.ra,
        p.r * Real.cos p.dec * Real.sin p.ra⟩ : ℂ)
        = ((p.r * Real.cos p.dec : ℝ) : ℂ)
          * (Complex.cos (p.ra : ℂ) + Complex.sin (p.ra : ℂ) * Complex.I) := by
      rw [Complex.mk_eq_add_mul_I]
      push_cast
      ring
    have harg := Complex.arg_mul_cos_add_sin_mul_I_sub hcpos p.ra
    have hwrap : wrap_angle (atan2 (p.r * Real.cos p.dec * Real.sin p.ra)
        (p.r * Real.cos p.dec * Real.cos p.ra)) = wrap_angle p.ra := by
      apply wrap_angle_eq_of_sub_eq_int_mul (k := ⌊(π - p.ra) / (2 * π)⌋)
      rw [atan2, hzeq]
      linarith [harg]
    rw [hwrap, wrap_angle_eq_self hra.1 hra.2]
  · show Real.arcsin (p.r * Real.sin p.dec
        / cnorm (spherical_to_cartesian p.r p.dec p.ra)) = p.dec
    rw [hcn, mul_div_cancel_left₀ _ hr.ne', Real.arcsin_sin hdec.1.le hdec.2.le]
  · exact hcn

/-- C6: converting a canonical spherical position from TETE to GCRS with an
orthogonal matrix `M` and then converting the result back with the transpose
(inverse) of `M` reproduces the position exactly (in the real-number model;
the float tolerance of the spec becomes exact equality). -/
theorem tete_to_gcrs_round_trip (p : SunPosition)
    (M : Matrix (Fin 3) (Fin 3) ℝ) (hM : M.transpose * M = 1) (hr : 0 < p.r)
    (hdec : p.dec ∈ Set.Ioo (-(π / 2)) (π / 2))
    (hra : p.ra ∈ Set.Ico 0 (2 * π)) :
    tete_to_gcrs (tete_to_gcrs p M) M.transpose = p := by
  have hwne : cnorm (Matrix.vecMul (spherical_to_cartesian p.r p.dec p.ra) M)
      ≠ 0 := by
    rw [cnorm_vecMul hM, cnorm_spherical_to_cartesian, abs_of_pos hr]
    exact hr.ne'
  have hL1 := spherical_of_cartesian_of
    (Matrix.vecMul (spherical_to_cartesian p.r p.dec p.ra) M) hwne
  have key : tete_to_gcrs (tete_to_gcrs p M) M.transpose
      = cartesian_to_spherical
          (Matrix.vecMul
            (Matrix.vecMul (spherical_to_cartesian p.r p.dec p.ra) M)
            M.transpose) := by
    show cartesian_to_spherical
        (Matrix.vecMul
          (spherical_to_cartesian
            (cartesian_to_spherical (Matrix.vecMul
              (spherical_to_cartesian p.r p.dec p.ra) M)).r
            (cartesian_to_spherical (Matrix.vecMul
              (spherical_to_cartesian p.r p.dec p.ra) M)).dec
            (cartesian_to_spherical (Matrix.vecMul
              (spherical_to_cartesian p.r p.dec p.ra) M)).ra)
          M.transpose) = _
    rw [hL1]
  rw [key, Matrix.vecMul_vecMul, Matrix.mul_eq_one_comm.mp hM,
    Matrix.vecMul_one]
  exact cartesian_of_spherical_of p hr hdec hra

/-- C6 witness: the round trip at the concrete position (ra 0, dec 0, r 1)
with the identity rotation matrix. -/
theorem tete_to_gcrs_round_trip_witness :
    ((1 : Matrix (Fin 3) (Fin 3) ℝ).transpose * 1 = 1 ∧ (0:ℝ) < 1 ∧
      (0:ℝ) ∈ Set.Ioo (-(π / 2)) (π / 2) ∧ (0:ℝ) ∈ Set.Ico 0 (2 * π)) ∧
    tete_to_gcrs (tete_to_gcrs ⟨0, 0, 1⟩ 1)
      (1 : Matrix (Fin 3) (Fin 3) ℝ).transpose = (⟨0, 0, 1⟩ : SunPosition) := by
  have h1 : (1 : Matrix (Fin 3) (Fin 3) ℝ).transpose * 1 = 1 := by
    rw [Matrix.transpose_one, one_mul]
  have h2 : (0:ℝ) < 1 := one_pos
  have h3 : (0:ℝ) ∈ Set.Ioo (-(π / 2)) (π / 2) := by
    constructor
    · have := Real.pi_pos; linarith
    · have := Real.pi_pos; linarith
  have h4 : (0:ℝ) ∈ Set.Ico 0 (2 * π) := ⟨le_rfl, two_pi_pos'⟩
  exact ⟨⟨h1, h2, h3, h4⟩, tete_to_gcrs_round_trip ⟨0, 0, 1⟩ 1 h1 h2 h3 h4⟩

theorem wrap_angle_mem_Ioo_zero_pi {θ : ℝ} (hs : 0 < Real.sin θ) :
    wrap_angle θ ∈ Set.Ioo 0 π := by
  have hw0 := wrap_angle_nonneg θ
  have hw2 := wrap_angle_lt θ
  have hsw : Real.sin (wrap_angle θ) = Real.sin θ := sin_wrap_angle θ
  constructor
  · rcases lt_or_eq_of_le hw0 with h | h
    · exact h
    · exfalso
      rw [← hsw, ← h, Real.sin_zero] at hs
      exact lt_irrefl 0 hs
  · by_contra h
    push_neg at h
    have h1 : 0 ≤ wrap_angle θ - π := by linarith
    have h2 : wrap_angle θ - π ≤ π := by linarith
    have h3 : 0 ≤ Real.sin (wrap_angle θ - π) :=
      Real.sin_nonneg_of_nonneg_of_le_pi h1 h2
    have h4 : Real.sin (wrap_angle θ - π + π) = -Real.sin (wrap_angle θ - π) :=
      Real.sin_add_pi _
    rw [sub_add_cancel, hsw] at h4
    linarith

theorem wrap_angle_mem_Ioo_pi_two_pi {θ : ℝ} (hs : Real.sin θ < 0) :
    wrap_angle θ ∈ Set.Ioo π (2 * π) := by
  have hw0 := wrap_angle_nonneg θ
  have hw2 := wrap_angle_lt θ
  have hsw : Real.sin (wrap_angle θ) = Real.sin θ := sin_wrap_angle θ
  constructor
  · by_contra h
    push_neg at h
    have := Real.sin_nonneg_of_nonneg_of_le_pi hw0 h
    linarith
  · exact hw2

theorem wrap_angle_q1 {θ : ℝ} (hs : 0 < Real.sin θ) (hc : 0 < Real.cos θ) :
    wrap_angle θ ∈ Set.Ioo 0 (π / 2) := by
  have h01 := wrap_angle_mem_Ioo_zero_pi hs
  have hcw : Real.cos (wrap_angle θ) = Real.cos θ := cos_wrap_angle θ
  refine ⟨h01.1, ?_⟩
  by_contra h
  push_neg at h
  have := Real.cos_nonpos_of_pi_div_two_le_of_le h (by linarith [h01.2])
  linarith

theorem wrap_angle_q2 {θ : ℝ} (hs : 0 < Real.sin θ) (hc : Real.cos θ < 0) :
    wrap_angle θ ∈ Set.Ioo (π / 2) π := by
  have h01 := wrap_angle_mem_Ioo_zero_pi hs
  have hcw : Real.cos (wrap_angle θ) = Real.cos θ := cos_wrap_angle θ
  refine ⟨?_, h01.2⟩
  by_contra h
  push_neg at h
  have := Real.cos_nonneg_of_mem_Icc
    ⟨by linarith [h01.1, Real.pi_div_two_pos], h⟩
  linarith

theorem wrap_angle_q3 {θ : ℝ} (hs : Real.sin θ < 0) (hc : Real.cos θ < 0) :
    wrap_angle θ ∈ Set.Ioo π (3 * (π / 2)) := by
  have h12 := wrap_angle_mem_Ioo_pi_two_pi hs
  have hcw : Real.cos (wrap_angle θ) = Real.cos θ := cos_wrap_angle θ
  refine ⟨h12.1, ?_⟩
  by_contra h
  push_neg at h
  have hmem : wrap_angle θ - 2 * π ∈ Set.Icc (-(π / 2)) (π / 2) := by
    constructor
    · linarith
    · linarith [h12.2, Real.pi_pos]
  have := Real.cos_nonneg_of_mem_Icc hmem
  rw [Real.cos_sub_two_pi, hcw] at this
  linarith

theorem wrap_angle_q4 {θ : ℝ} (hs : Real.sin θ < 0) (hc : 0 < Real.cos θ) :
    wrap_angle θ ∈ Set.Ioo (3 * (π / 2)) (2 * π) := by
  have h12 := wrap_angle_mem_Ioo_pi_two_pi hs
  have hcw : Real.cos (wrap_angle θ) = Real.cos θ := cos_wrap_angle θ
  refine ⟨?_, h12.2⟩
  by_contra h
  push_neg at h
  have hx1 : π / 2 ≤ wrap_angle θ := by linarith [h12.1, Real.pi_pos]
  have hx2 : wrap_angle θ ≤ π + π / 2 := by linarith
  have := Real.cos_nonpos_of_pi_div_two_le_of_le hx1 hx2
  linarith

theorem atan2_q1 {y x : ℝ} (hy : 0 < y) (hx : 0 < x) :
    atan2 y x ∈ Set.Ioo 0 (π / 2) := by
  have hre : (⟨x, y⟩ : ℂ).re = x := rfl
  have him : (⟨x, y⟩ : ℂ).im = y := rfl
  constructor
  · rcases lt_or_eq_of_le (Complex.arg_nonneg_iff.mpr (by rw [him]; exact hy.le))
      with h | h
    · exact h
    · exfalso
      have := Complex.arg_eq_zero_iff.mp h.symm
      rw [him] at this
      exact hy.ne' this.2
  · exact Complex.arg_lt_pi_div_two_iff.mpr (Or.inl (by rw [hre]; exact hx))

theorem atan2_q2 {y x : ℝ} (hy : 0 < y) (hx : x < 0) :
    atan2 y x ∈ Set.Ioo (π / 2) π := by
  have hre : (⟨x, y⟩ : ℂ).re = x := rfl
  have him : (⟨x, y⟩ : ℂ).im = y := rfl
  constructor
  · have hnlt : ¬ Complex.arg ⟨x, y⟩ < π / 2 := by
      rw [Complex.arg_lt_pi_div_two_iff]
      push_neg
      refine ⟨by rw [hre]; linarith, by rw [him]; linarith, ?_⟩
      exact complex_mk_ne_zero (by rintro ⟨h1, _⟩; exact hx.ne h1)
    have hne : Complex.arg ⟨x, y⟩ ≠ π / 2 := by
      intro h
      have := (Complex.arg_eq_pi_div_two_iff.mp h).1
      rw [hre] at this
      exact hx.ne this
    rcases lt_or_eq_of_le (not_lt.mp hnlt) with h | h
    · exact h
    · exact absurd h.symm hne
  · rw [atan2]
    exact Complex.arg_lt_pi_iff.mpr (Or.inr (by rw [him]; exact hy.ne'))

theorem atan2_q3 {y x : ℝ} (hy : y < 0) (hx : x < 0) :
    atan2 y x ∈ Set.Ioo (-π) (-(π / 2)) := by
  have hre : (⟨x, y⟩ : ℂ).re = x := rfl
  have him : (⟨x, y⟩ : ℂ).im = y := rfl
  constructor
  · exact Complex.neg_pi_lt_arg _
  · have hnlt : ¬ -(π / 2) < Complex.arg ⟨x, y⟩ := by
      rw [Complex.neg_pi_div_two_lt_arg_iff]
      push_neg
      exact ⟨by rw [hre]; linarith, by rw [him]; linarith⟩
    have hne : Complex.arg ⟨x, y⟩ ≠ -(π / 2) := by
      intro h
      have := (Complex.arg_eq_neg_pi_div_two_iff.mp h).1
      rw [hre] at this
      exact hx.ne this
    rcases lt_or_eq_of_le (not_lt.mp hnlt) with h | h
    · exact h
    · exact absurd h hne
  
theorem atan2_q4 {y x : ℝ} (hy : y < 0) (hx : 0 < x) :
    atan2 y x ∈ Set.Ioo (-(π / 2)) 0 := by
  have hre : (⟨x, y⟩ : ℂ).re = x := rfl
  have him : (⟨x, y⟩ : ℂ).im = y := rfl
  constructor
  · exact Complex.neg_pi_div_two_lt_arg_iff.mpr (Or.inl (by rw [hre]; exact hx))
  · exact Complex.arg_neg_iff.mpr (by rw [him]; exact hy)

theorem quadrantIdx_eq_of_bounds {θ : ℝ} {k : ℤ}
    (h1 : (k : ℝ) * (π / 2) ≤ wrap_angle θ)
    (h2 : wrap_angle θ < ((k : ℝ) + 1) * (π / 2)) : quadrantIdx θ = k := by
  rw [quadrantIdx, Int.floor_eq_iff]
  constructor
  · rw [le_div_iff₀ Real.pi_div_two_pos]
    exact h1
  · rw [div_lt_iff₀ Real.pi_div_two_pos]
    exact h2

theorem wrap_angle_of_neg {t : ℝ} (h1 : -(2 * π) ≤ t) (h2 : t < 0) :
    wrap_angle t = t + 2 * π := by
  have heq : wrap_angle t = wrap_angle (t + 2 * π) := by
    apply wrap_angle_eq_of_sub_eq_int_mul (k := -1)
    ring
  rw [heq]
  exact wrap_angle_eq_self (by linarith) (by linarith)

/-- C4: the right ascension computed with the two-argument arctangent,
`atan2(cos(eps) * sin(L), cos(L))`, lies in the same quadrant as the
apparent ecliptic longitude `L` (whenever `L` is strictly inside a quadrant
and `cos eps > 0`, as holds for the obliquity); a single-argument arctangent
of the same ratio never lands in quadrants II or III. The first conjunct
records that this is exactly the right-ascension formula of the code. -/
theorem sun_RA_quadrant (eps L : ℝ) (heps : 0 < Real.cos eps)
    (hs : Real.sin L ≠ 0) (hc : Real.cos L ≠ 0) :
    (∀ JD : ℝ, sun_RA_rad JD
      = atan2 (Real.cos (sun_e_rad JD) * Real.sin (sun_L_rad JD))
          (Real.cos (sun_L_rad JD))) ∧
    quadrantIdx (atan2 (Real.cos eps * Real.sin L) (Real.cos L))
      = quadrantIdx L ∧
    ((quadrantIdx L = 1 ∨ quadrantIdx L = 2) →
      quadrantIdx (Real.arctan (Real.cos eps * Real.sin L / Real.cos L))
        ≠ quadrantIdx L) := by
  refine ⟨fun _ => rfl, ?_, ?_⟩
  · rcases hs.lt_or_lt with hsL | hsL <;> rcases hc.lt_or_lt with hcL | hcL
    · -- sin L < 0, cos L < 0 : quadrant III
      have hy : Real.cos eps * Real.sin L < 0 := mul_neg_of_pos_of_neg heps hsL
      have hL := wrap_angle_q3 hsL hcL
      have hA := atan2_q3 hy hcL
      have hw : wrap_angle (atan2 (Real.cos eps * Real.sin L) (Real.cos L))
          = atan2 (Real.cos eps * Real.sin L) (Real.cos L) + 2 * π :=
        wrap_angle_of_neg (by linarith [Real.pi_pos, hA.1])
          (by linarith [hA.2, Real.pi_div_two_pos])
      have e1 : quadrantIdx (atan2 (Real.cos eps * Real.sin L) (Real.cos L))
          = 2 := by
        apply quadrantIdx_eq_of_bounds
        · rw [hw]; push_cast; linarith [hA.1]
        · rw [hw]; push_cast; linarith [hA.2]
      have e2 : quadrantIdx L = 2 := by
        apply quadrantIdx_eq_of_bounds
        · push_cast; linarith [hL.1]
        · push_cast; linarith [hL.2]
      rw [e1, e2]
    · -- sin L < 0, 0 < cos L : quadrant IV
      have hy : Real.cos eps * Real.sin L < 0 := mul_neg_of_pos_of_neg heps hsL
      have hL := wrap_angle_q4 hsL hcL
      have hA := atan2_q4 hy hcL
      have hw : wrap_angle (atan2 (Real.cos eps * Real.sin L) (Real.cos L))
          = atan2 (Real.cos eps * Real.sin L) (Real.cos L) + 2 * π :=
        wrap_angle_of_neg (by linarith [Real.pi_pos, hA.1, Real.pi_div_two_pos])
          (by linarith [hA.2])
      have e1 : quadrantIdx (atan2 (Real.cos eps * Real.sin L) (Real.cos L))
          = 3 := by
        apply quadrantIdx_eq_of_bounds
        · rw [hw]; push_cast; linarith [hA.1]
        · rw [hw]; push_cast; linarith [hA.2]
      have e2 : quadrantIdx L = 3 := by
        apply quadrantIdx_eq_of_bounds
        · push_cast; linarith [hL.1]
        · push_cast; linarith [hL.2]
      rw [e1, e2]
    · -- 0 < sin L, cos L < 0 : quadrant II
      have hy : 0 < Real.cos eps * Real.sin L := mul_pos heps hsL
      have hL := wrap_angle_q2 hsL hcL
      have hA := atan2_q2 hy hcL
      have hw : wrap_angle (atan2 (Real.cos eps * Real.sin L) (Real.cos L))
          = atan2 (Real.cos eps * Real.sin L) (Real.cos L) :=
        wrap_angle_eq_self (by linarith [hA.1, Real.pi_div_two_pos])
          (by linarith [hA.2, Real.pi_pos])
      have e1 : quadrantIdx (atan2 (Real.cos eps * Real.sin L) (Real.cos L))
          = 1 := by
        apply quadrantIdx_eq_of_bounds
        · rw [hw]; push_cast; linarith [hA.1]
        · rw [hw]; push_cast; linarith [hA.2]
      have e2 : quadrantIdx L = 1 := by
        apply quadrantIdx_eq_of_bounds
        · push_cast; linarith [hL.1]
        · push_cast; linarith [hL.2]
      rw [e1, e2]
    · -- 0 < sin L, 0 < cos L : quadrant I
      have hy : 0 < Real.cos eps * Real.sin L := mul_pos heps hsL
      have hL := wrap_angle_q1 hsL hcL
      have hA := atan2_q1 hy hcL
      have hw : wrap_angle (atan2 (Real.cos eps * Real.sin L) (Real.cos L))
          = atan2 (Real.cos eps * Real.sin L) (Real.cos L) :=
        wrap_angle_eq_self (by linarith [hA.1])
          (by linarith [hA.2, Real.pi_pos, Real.pi_div_two_pos])
      have e1 : quadrantIdx (atan2 (Real.cos eps * Real.sin L) (Real.cos L))
          = 0 := by
        apply quadrantIdx_eq_of_bounds
        · rw [hw]; push_cast; linarith [hA.1]
        · rw [hw]; push_cast; linarith [hA.2]
      have e2 : quadrantIdx L = 0 := by
        apply quadrantIdx_eq_of_bounds
        · push_cast; linarith [hL.1]
        · push_cast; linarith [hL.2]
      rw [e1, e2]
  · intro hqL
    have h1 := Real.neg_pi_div_two_lt_arctan
      (Real.cos eps * Real.sin L / Real.cos L)
    have h2 := Real.arctan_lt_pi_div_two
      (Real.cos eps * Real.sin L / Real.cos L)
    have harct : quadrantIdx
        (Real.arctan (Real.cos eps * Real.sin L / Real.cos L)) = 0
        ∨ quadrantIdx
          (Real.arctan (Real.cos eps * Real.sin L / Real.cos L)) = 3 := by
      rcases le_or_lt 0
          (Real.arctan (Real.cos eps * Real.sin L / Real.cos L)) with h0 | h0
      · left
        have hw := wrap_angle_eq_self h0 (by linarith [Real.pi_pos])
        apply quadrantIdx_eq_of_bounds
        · rw [hw]; push_cast; linarith
        · rw [hw]; push_cast; linarith
      · right
        have hw := wrap_angle_of_neg
          (t := Real.arctan (Real.cos eps * Real.sin L / Real.cos L))
          (by linarith [Real.pi_pos]) h0
        apply quadrantIdx_eq_of_bounds
        · rw [hw]; push_cast; linarith
        · rw [hw]; push_cast; linarith
    rcases harct with h | h <;> rcases hqL with h1a | h1a <;>
      rw [h, h1a] <;> omega

/-- C4 witness: quadrant agreement at the concrete obliquity 0 and apparent
longitude of 100 degrees (quadrant II). -/
theorem sun_RA_quadrant_witness :
    (0 < Real.cos 0 ∧ Real.sin (degrees_to_radians 100) ≠ 0 ∧
      Real.cos (degrees_to_radians 100) ≠ 0) ∧
    quadrantIdx (atan2 (Real.cos 0 * Real.sin (degrees_to_radians 100))
        (Real.cos (degrees_to_radians 100)))
      = quadrantIdx (degrees_to_radians 100) := by
  have hpi := Real.pi_pos
  have h0 : 0 < degrees_to_radians 100 := by
    show 0 < 100 * π / 180.0
    positivity
  have hlt : degrees_to_radians 100 < π := by
    show 100 * π / 180.0 < π
    linarith
  have hhalf : π / 2 < degrees_to_radians 100 := by
    show π / 2 < 100 * π / 180.0
    linarith
  have heps : 0 < Real.cos 0 := by
    rw [Real.cos_zero]
    exact one_pos
  have hs : Real.sin (degrees_to_radians 100) ≠ 0 :=
    (Real.sin_pos_of_pos_of_lt_pi h0 hlt).ne'
  have hc : Real.cos (degrees_to_radians 100) ≠ 0 :=
    (Real.cos_neg_of_pi_div_two_lt_of_lt hhalf (by linarith)).ne
  exact ⟨⟨heps, hs, hc⟩,
    (sun_RA_quadrant 0 (degrees_to_radians 100) heps hs hc).2.1⟩

theorem find?_pool_events {α β : Type} (f : α → β) (xs : List α)
    (completed : List (ℕ × α)) (hperm : completed.Perm xs.enum)
    {i : ℕ} (hi : i < xs.length) :
    (pool_events f completed).find? (fun e => e.1 == i)
      = some (i, f xs[i]) := by
  have hpermE : (pool_events f completed).Perm
      (xs.enum.map (fun p => (p.1, f p.2))) := hperm.map _
  have henum : (i, xs[i]) ∈ xs.enum :=
    List.mem_enum_iff_getElem?.mpr (List.getElem?_eq_getElem hi)
  have hmem : (i, f xs[i]) ∈ pool_events f completed := by
    rw [hpermE.mem_iff]
    exact List.mem_map_of_mem _ henum
  cases hfind : (pool_events f completed).find? (fun e => e.1 == i) with
  | none =>
    exfalso
    have hnone := List.find?_eq_none.mp hfind _ hmem
    simp at hnone
  | some a =>
    have hp : a.1 = i := by
      have := List.find?_some hfind
      simpa using this
    have hmema := List.mem_of_find?_eq_some hfind
    rw [hpermE.mem_iff] at hmema
    obtain ⟨b, hb, hba⟩ := List.mem_map.mp hmema
    have hb2 : xs[b.1]? = some b.2 := List.mem_enum_iff_getElem?.mp hb
    have hb1 : b.1 = i := by
      rw [← hba] at hp
      exact hp
    rw [hb1, List.getElem?_eq_getElem hi] at hb2
    have hbx : xs[i] = b.2 := Option.some_inj.mp hb2
    rw [← hba, hb1, hbx]

/-- C10: for every batch of time points, the parallel-pool path of
`get_sun_approximate` returns exactly what the disabled sequential path
returns — a list of the same length whose i-th element is the approximate
sun position of the i-th input time — for every completion order of the
pool's workers (any permutation of the indexed inputs). -/
theorem get_sun_approximate_pool_eq_seq
    (rbpn : ℝ → Matrix (Fin 3) (Fin 3) ℝ) (JDs : List ℝ)
    (completed : List (ℕ × ℝ)) (hperm : completed.Perm JDs.enum) :
    get_sun_approximate_pool rbpn JDs completed
      = (get_sun_approximate_seq rbpn JDs).map some := by
  apply List.ext_getElem
  · simp [get_sun_approximate_pool, pool_reassemble, get_sun_approximate_seq]
  · intro i h1 h2
    have hlen : i < JDs.length := by
      simpa [get_sun_approximate_pool, pool_reassemble] using h1
    have hfind := find?_pool_events (approximate_sun_position rbpn) JDs
      completed hperm hlen
    simp only [get_sun_approximate_pool, pool_reassemble,
      get_sun_approximate_seq, List.getElem_map, List.getElem_range, hfind,
      Option.map_some']

/-- C10 witness: a two-element batch whose pool workers complete in reversed
order still yields the sequential result. -/
theorem get_sun_approximate_pool_eq_seq_witness :
    get_sun_approximate_pool (fun _ => 1) [0, 1] [(1, 1), (0, 0)]
      = (get_sun_approximate_seq (fun _ => 1) [0, 1]).map some := by
  apply get_sun_approximate_pool_eq_seq
  have henum : ([0, 1] : List ℝ).enum = [(0, (0:ℝ)), (1, (1:ℝ))] := rfl
  rw [henum]
  exact List.Perm.swap (0, (0:ℝ)) (1, (1:ℝ)) []
